import Mathlib

/-!
Verification of the RSA core (`sshrsa.c`) and the generic HMAC module of this
repository.  The C code is shallowly embedded: PuTTY bignums become `ℕ`,
byte buffers become `List ℕ` (each entry a byte value), and the external
collaborators (SHA-1, SHA-512, the random byte source) become function
parameters, since only their interfaces belong to this core.

The unbounded rejection-sampling loop in `rsa_privkey_op` draws a blinding
value from a SHA-512-based deterministic stream; the loop's output is modelled
by passing the drawn value `random` and its modular inverse `random_inverse`
as parameters, characterised exactly by the loop's exit conditions
(0 < random < modulus, and random * random_inverse ≡ 1 mod modulus).
-/

set_option maxRecDepth 40000

/-! ## Bignum adapter (`ℕ` model of the PuTTY bignum interface) -/

/-- Fuel-driven helper for the bit count: number of binary digits of `n`.
The fuel only bounds the recursion depth; `bitlenAux n n` is exact. -/
def bitlenAux : ℕ → ℕ → ℕ
  | 0, _ => 0
  | fuel + 1, n => if n = 0 then 0 else bitlenAux fuel (n / 2) + 1

/-- Embedding of `bignum_bitcount`: index of the topmost set bit plus one (0 for zero). -/
def bignum_bitcount (n : ℕ) : ℕ := bitlenAux n n

/-- Embedding of `bignum_byte(b, i)`: byte `i` of `b` (0 = least significant); zero beyond
the top, as in the C bignum adapter. -/
def bignum_byte (b i : ℕ) : ℕ := b / 256 ^ i % 256

/-- Embedding of `bignum_from_bytes`: big-endian byte string to integer. -/
def bignum_from_bytes (l : List ℕ) : ℕ := l.foldl (fun a b => a * 256 + b) 0

/-- Fuel-driven binary modular exponentiation; `modpowAux b m e e` computes
`b ^ e % m` with a recursion depth logarithmic in `e`, so that the kernel can
evaluate it on cryptographic sizes. -/
def modpowAux (b m : ℕ) : ℕ → ℕ → ℕ
  | _, 0 => 1 % m
  | 0, _ + 1 => 1 % m
  | fuel + 1, e + 1 =>
    let r := modpowAux b m fuel ((e + 1) / 2)
    if (e + 1) % 2 = 1 then r * r * b % m else r * r % m

/-- Embedding of `modpow`: modular exponentiation of the bignum adapter. -/
def modpow (b e m : ℕ) : ℕ := modpowAux b m e e

/-- Embedding of `modmul`: modular multiplication of the bignum adapter. -/
def modmul (a b m : ℕ) : ℕ := a * b % m

/-- Fuel-driven extended Euclid: `egcdAux fuel a b = (g, x, y)` with
`a*x + b*y = g = gcd a b` (over `ℤ`). -/
def egcdAux : ℕ → ℕ → ℕ → ℕ × ℤ × ℤ
  | 0, a, _ => (a, 1, 0)
  | fuel + 1, a, b =>
    if b = 0 then (a, 1, 0)
    else
      let r := egcdAux fuel b (a % b)
      (r.1, r.2.2, r.2.1 - ((a / b : ℕ) : ℤ) * r.2.2)

/-- Embedding of `modinv a m`: multiplicative inverse of `a` modulo `m`, or `none` when no
inverse exists (the C adapter returns NULL in that case). -/
def modinv (a m : ℕ) : Option ℕ :=
  if Nat.gcd a m = 1 then some (((egcdAux (a + m + 1) a m).2.1 % (m : ℤ)).toNat)
  else none

/-- Big-endian byte serialisation of `v` on `count` bytes, as written by the
`for (i = count; i--;) *p++ = bignum_byte(v, i);` loops in the C code. -/
def bytes_be (v count : ℕ) : List ℕ :=
  (List.range count).map (fun i => bignum_byte v (count - 1 - i))

/-! ## Wire helpers (BinarySink / getstring layer) -/

/-- The ASCII bytes of the algorithm name "ssh-rsa". -/
def sshrsaId : List ℕ := [115, 115, 104, 45, 114, 115, 97]

/-- Embedding of `GET_32BIT`: big-endian 32-bit read from the front of a byte list. -/
def GET_32BIT : List ℕ → ℕ
  | b0 :: b1 :: b2 :: b3 :: _ => ((b0 * 256 + b1) * 256 + b2) * 256 + b3
  | _ => 0

/-- Embedding of `put_uint32`: big-endian 32-bit write (value taken mod 2^32). -/
def put_uint32 (v : ℕ) : List ℕ :=
  [v / 2 ^ 24 % 256, v / 2 ^ 16 % 256, v / 2 ^ 8 % 256, v % 256]

/-- Embedding of `put_stringz` on a byte list: 32-bit length then the bytes. -/
def put_stringz (s : List ℕ) : List ℕ := put_uint32 s.length ++ s

/-- Embedding of `getstring`: read a 32-bit length then that many bytes.  Returns the
string (or `none` on failure, the C code's NULL `*p`) and the advanced
data pointer.  Mirrors the C exactly: a too-short header or a negative
length (top bit set, `toint` < 0) does not advance; a truncated body has
already advanced past the 4 length bytes. -/
def getstring (data : List ℕ) : Option (List ℕ) × List ℕ :=
  if data.length < 4 then (none, data)
  else
    let len := GET_32BIT data
    if 2 ^ 31 ≤ len then (none, data)
    else
      let rest := data.drop 4
      if rest.length < len then (none, rest)
      else (some (rest.take len), rest.drop len)

/-- Embedding of `getmp`: read a string and convert it to a bignum. -/
def getmp (data : List ℕ) : Option ℕ × List ℕ :=
  match getstring data with
  | (none, rest) => (none, rest)
  | (some s, rest) => (some (bignum_from_bytes s), rest)

/-! ## RSA key record -/

/-- Embedding of `struct RSAKey`, fully-populated view: every bignum field present.
`comment` is the opaque label. -/
structure RSAKey where
  modulus : ℕ
  exponent : ℕ
  private_exponent : ℕ
  p : ℕ
  q : ℕ
  iqmp : ℕ
  bits : ℕ
  bytes : ℕ
  comment : Option String
deriving DecidableEq

/-! ## RSA primitive engine -/

/-- Embedding of `crt_modpow(base, exp, mod, p, q, iqmp)` from sshrsa.c: CRT-accelerated
modular exponentiation. -/
def crt_modpow (base exp md p q iqmp : ℕ) : ℕ :=
  let pm1 := p - 1
  let qm1 := q - 1
  let pexp := exp % pm1
  let qexp := exp % qm1
  let presult := modpow base pexp p
  let qresult := modpow base qexp q
  let presult2 := if presult < qresult then presult + p else presult
  let diff := presult2 - qresult
  let multiplier := iqmp * q
  let ret0 := multiplier * diff + qresult
  ret0 % md

/-- Embedding of `rsa_privkey_op(input, key)`: blinded private-key operation.  The
blinding value `random` and its inverse `random_inverse` stand for the
output of the SHA-512-driven sampling loop (see the file comment). -/
def rsa_privkey_op (input : ℕ) (key : RSAKey) (random random_inverse : ℕ) : ℕ :=
  let random_encrypted :=
    crt_modpow random key.exponent key.modulus key.p key.q key.iqmp
  let input_blinded := modmul input random_encrypted key.modulus
  let ret_blinded :=
    crt_modpow input_blinded key.private_exponent key.modulus key.p key.q key.iqmp
  modmul ret_blinded random_inverse key.modulus

/-! ## Key verification -/

/-- Embedding of `rsa_verify(key)` from sshrsa.c, on a fully-populated key.  Returns the
boolean result together with the (possibly canonicalised) key, modelling the
in-place mutation of `p`, `q`, `iqmp`.  When `modinv` fails the C code stores
NULL into `iqmp`; that released field is modelled as 0 here (the call returns
failure and the caller discards the key). -/
def rsa_verify (key : RSAKey) : Bool × RSAKey :=
  if key.p * key.q ≠ key.modulus then (false, key)
  else if key.exponent * key.private_exponent % (key.p - 1) ≠ 1 then (false, key)
  else if key.exponent * key.private_exponent % (key.q - 1) ≠ 1 then (false, key)
  else if key.p ≤ key.q then
    let key2 := { key with p := key.q, q := key.p }
    match modinv key2.q key2.p with
    | none => (false, { key2 with iqmp := 0 })
    | some v =>
      let key3 := { key2 with iqmp := v }
      if key3.iqmp * key3.q % key3.p = 1 then (true, key3) else (false, key3)
  else if key.iqmp * key.q % key.p = 1 then (true, key) else (false, key)

/-! ## SSH-1 PKCS#1 v1.5 encryption -/

/-- Embedding of `rsa_ssh1_encrypt(data, length, key)`.  `rnd i` is the non-zero random
byte drawn for buffer position `i` (output of the regenerate-on-zero loop).
Returns the C `int` result (1 = success) and the buffer contents: on failure
the buffer is untouched; on success it holds the `key.bytes`-byte
ciphertext. -/
def rsa_ssh1_encrypt (data : List ℕ) (key : RSAKey) (rnd : ℕ → ℕ) : ℕ × List ℕ :=
  let length := data.length
  if key.bytes < length + 4 then (0, data)
  else
    let buf :=
      0 :: 2 :: ((List.range (key.bytes - length - 3)).map (fun i => rnd (i + 2))
        ++ 0 :: data)
    let b1 := bignum_from_bytes buf
    let b2 := modpow b1 key.exponent key.modulus
    (1, bytes_be b2 key.bytes)

/-! ## ssh-rsa signing and verification -/

/-- The fixed ASN.1/DER DigestInfo prefix (`asn1_weird_stuff` in sshrsa.c). -/
def asn1_weird_stuff : List ℕ :=
  [0x00, 0x30, 0x21, 0x30, 0x09, 0x06, 0x05, 0x2B,
   0x0E, 0x03, 0x02, 0x1A, 0x05, 0x00, 0x04, 0x14]

/-- Embedding of `ASN1_LEN`. -/
def ASN1_LEN : ℕ := 16

/-- The encoded message built by `rsa2_sign` before the private operation:
`nbytes = (bitcount(n) - 1) / 8` bytes laid out as
`01 FF .. FF <asn1_weird_stuff> <hash>`. -/
def rsa2_sign_encode (n : ℕ) (hash : List ℕ) : List ℕ :=
  let nbytes := (bignum_bitcount n - 1) / 8
  1 :: (List.replicate (nbytes - 20 - ASN1_LEN - 1) 0xFF ++ asn1_weird_stuff ++ hash)

/-- Embedding of `rsa2_sign(key, data)`.  `sha1` is the external SHA-1 collaborator;
`random`/`random_inverse` model the blinding draw as in `rsa_privkey_op`.
Produces the signature blob: string "ssh-rsa", then a 32-bit length and the
big-endian bytes of the signature integer. -/
def rsa2_sign (sha1 : List ℕ → List ℕ) (key : RSAKey) (data : List ℕ)
    (random random_inverse : ℕ) : List ℕ :=
  let hash := sha1 data
  let inval := bignum_from_bytes (rsa2_sign_encode key.modulus hash)
  let out := rsa_privkey_op inval key random random_inverse
  let nbytes := (bignum_bitcount out + 7) / 8
  put_stringz sshrsaId ++ put_uint32 nbytes ++ bytes_be out nbytes

/-- The `ret` accumulator of `rsa2_verifysig`: the C code runs every check,
clearing `ret` on any failure, so the outcome is this conjunction. -/
def rsa2_verifysig_checks (sha1 : List ℕ → List ℕ) (key : RSAKey)
    (inval : ℕ) (data : List ℕ) : Bool :=
  let out := modpow inval key.exponent key.modulus
  let bytes := (bignum_bitcount key.modulus + 7) / 8
  (bignum_byte out (bytes - 1) == 0) &&
  (bignum_byte out (bytes - 2) == 1) &&
  ((List.range (bytes - 2 - (20 + ASN1_LEN))).all
    (fun t => bignum_byte out (20 + ASN1_LEN + t) == 0xFF)) &&
  ((List.range ASN1_LEN).all
    (fun j => bignum_byte out (20 + ASN1_LEN - 1 - j) == asn1_weird_stuff.getD j 0)) &&
  ((List.range 20).all
    (fun j => bignum_byte out (19 - j) == (sha1 data).getD j 0))

/-- Embedding of `rsa2_verifysig(key, sig, data)` from sshrsa.c.  Returns the C `int`
(1 = valid). -/
def rsa2_verifysig (sha1 : List ℕ → List ℕ) (key : RSAKey)
    (sig data : List ℕ) : ℕ :=
  match getstring sig with
  | (none, _) => 0
  | (some name, rest) =>
    if name ≠ sshrsaId then 0
    else
      match getmp rest with
      | (none, _) => 0
      | (some inval, _) =>
        if rsa2_verifysig_checks sha1 key inval data then 1 else 0

/-- Claim-side description of signature verification, written from the
specification's words (layout of `m = s^e mod n` in big-endian byte positions
from 0 = LSB), for comparison with `rsa2_verifysig`. -/
def rsa2_verifysig_claim (sha1 : List ℕ → List ℕ) (key : RSAKey)
    (sig data : List ℕ) : Prop :=
  ∃ name rest s rest2,
    getstring sig = (some name, rest) ∧ name = sshrsaId ∧
    getmp rest = (some s, rest2) ∧
    (let m := s ^ key.exponent % key.modulus
     let bytes := (bignum_bitcount key.modulus + 7) / 8
     bignum_byte m (bytes - 1) = 0 ∧
     bignum_byte m (bytes - 2) = 1 ∧
     (∀ i, 36 ≤ i → i ≤ bytes - 3 → bignum_byte m i = 0xFF) ∧
     (∀ i, 20 ≤ i → i ≤ 35 → bignum_byte m i = asn1_weird_stuff.getD (35 - i) 0) ∧
     (∀ i, i ≤ 19 → bignum_byte m i = (sha1 data).getD (19 - i) 0))

/-! ## RSAES-OAEP encryption -/

/-- Embedding of `oaep_mask(h, seed, data)`: MGF1 masking loop.  `hlen` is the descriptor's
digest length `h->hlen`; the fuel is `data.length`, enough for the loop since
each iteration consumes `min hlen datalen ≥ 1` bytes. -/
def oaep_maskAux (h : List ℕ → List ℕ) (hlen : ℕ) (seed : List ℕ) :
    ℕ → ℕ → List ℕ → List ℕ
  | 0, _, data => data
  | fuel + 1, count, data =>
    if data.isEmpty then data
    else
      let mx := min hlen data.length
      let hash := h (seed ++ put_uint32 count)
      List.zipWith (fun a b => a ^^^ b) (data.take mx) (hash.take mx) ++
        oaep_maskAux h hlen seed fuel (count + 1) (data.drop mx)

/-- Embedding of `oaep_mask` entry point (counter starts at 0). -/
def oaep_mask (h : List ℕ → List ℕ) (hlen : ℕ) (seed data : List ℕ) : List ℕ :=
  oaep_maskAux h hlen seed data.length 0 data

/-- The EME-OAEP block built by `ssh_rsakex_encrypt` before masking:
`00 ∥ seed ∥ h("") ∥ 00..00`, then the `01` separator and the plaintext
written over the tail. -/
def ssh_rsakex_encrypt_base (h : List ℕ → List ℕ) (hlen : ℕ)
    (seed plain : List ℕ) (outlen : ℕ) : List ℕ :=
  let base := 0 :: (seed ++ h [] ++ List.replicate (outlen - (2 * hlen + 1)) 0)
  base.take (outlen - plain.length - 1) ++ 1 :: plain

/-- The buffer contents just before the modular exponentiation in
`ssh_rsakex_encrypt`: mask DB with MGF1(seed), then mask the seed with
MGF1(masked DB). -/
def ssh_rsakex_encrypt_premodexp (h : List ℕ → List ℕ) (hlen : ℕ)
    (seed plain : List ℕ) (outlen : ℕ) : List ℕ :=
  let u := ssh_rsakex_encrypt_base h hlen seed plain outlen
  let seedPart := (u.drop 1).take hlen
  let db := u.drop (hlen + 1)
  let maskedDB := oaep_mask h hlen seedPart db
  let maskedSeed := oaep_mask h hlen maskedDB seedPart
  u.take 1 ++ maskedSeed ++ maskedDB

/-- Embedding of `ssh_rsakex_encrypt`: the full RSAES-OAEP encryption (final modexp and
big-endian write-back). -/
def ssh_rsakex_encrypt (h : List ℕ → List ℕ) (hlen : ℕ)
    (seed plain : List ℕ) (outlen : ℕ) (key : RSAKey) : List ℕ :=
  let out := ssh_rsakex_encrypt_premodexp h hlen seed plain outlen
  bytes_be (modpow (bignum_from_bytes out) key.exponent key.modulus) outlen

/-! ## HMAC (the generic RFC 2104 module) -/

/-- The hash-algorithm descriptor consumed by the HMAC module (function,
digest length, text name). -/
structure ssh_hashalg where
  hash : List ℕ → List ℕ
  hlen : ℕ
  text_name : String

/-- Embedding of `struct hmac_extra`. -/
structure hmac_extra where
  hashalg : ssh_hashalg
  blklen : ℕ
  suffix : String

/-- Embedding of `struct ssh2_macalg` (descriptor fields relevant to the data model:
wire name, ETM wire name, output length `len`, key length `keylen`, extra). -/
structure ssh2_macalg where
  name : String
  etm_name : Option String
  len : ℕ
  keylen : ℕ
  extra : hmac_extra

/-- Embedding of `PAD_OUTER`. -/
def PAD_OUTER : ℕ := 0x5C

/-- Embedding of `PAD_INNER`. -/
def PAD_INNER : ℕ := 0x36

/-- Embedding of `hmac_key(mac, key)`: the HMAC key schedule.  Returns the two `blklen`-byte
blocks absorbed into the outer and inner hash states.  A key longer than the
block length is first hashed (to the algorithm's full digest). -/
def hmac_key (extra : hmac_extra) (key : List ℕ) : List ℕ × List ℕ :=
  let kp := if extra.blklen < key.length then extra.hashalg.hash key else key
  (kp.map (fun b => PAD_OUTER ^^^ b) ++
     List.replicate (extra.blklen - kp.length) PAD_OUTER,
   kp.map (fun b => PAD_INNER ^^^ b) ++
     List.replicate (extra.blklen - kp.length) PAD_INNER)

/-- Embedding of `ssh_hmac_sha256` descriptor (parameterised by the external hash). -/
def ssh_hmac_sha256 (sha256 : ssh_hashalg) : ssh2_macalg :=
  ⟨"hmac-sha2-256", some "hmac-sha2-256-etm@openssh.com", 32, 32, ⟨sha256, 64, ""⟩⟩

/-- Embedding of `ssh_hmac_md5` descriptor. -/
def ssh_hmac_md5 (md5 : ssh_hashalg) : ssh2_macalg :=
  ⟨"hmac-md5", some "hmac-md5-etm@openssh.com", 16, 16, ⟨md5, 64, ""⟩⟩

/-- Embedding of `ssh_hmac_sha1` descriptor. -/
def ssh_hmac_sha1 (sha1 : ssh_hashalg) : ssh2_macalg :=
  ⟨"hmac-sha1", some "hmac-sha1-etm@openssh.com", 20, 20, ⟨sha1, 64, ""⟩⟩

/-- Embedding of `ssh_hmac_sha1_96` descriptor. -/
def ssh_hmac_sha1_96 (sha1 : ssh_hashalg) : ssh2_macalg :=
  ⟨"hmac-sha1-96", some "hmac-sha1-96-etm@openssh.com", 12, 20, ⟨sha1, 64, "-96"⟩⟩

/-- Embedding of `ssh_hmac_sha1_buggy` descriptor. -/
def ssh_hmac_sha1_buggy (sha1 : ssh_hashalg) : ssh2_macalg :=
  ⟨"hmac-sha1", none, 20, 16, ⟨sha1, 64, " (bug-compatible)"⟩⟩

/-- Embedding of `ssh_hmac_sha1_96_buggy` descriptor. -/
def ssh_hmac_sha1_96_buggy (sha1 : ssh_hashalg) : ssh2_macalg :=
  ⟨"hmac-sha1-96", none, 12, 16, ⟨sha1, 64, "-96 (bug-compatible)"⟩⟩

/-! ## ssh-rsa key construction from wire blobs -/

/-- Embedding of `struct RSAKey` as populated by the codecs: nullable bignum pointers. -/
structure RSAKeyW where
  modulus : Option ℕ
  exponent : Option ℕ
  private_exponent : Option ℕ
  p : Option ℕ
  q : Option ℕ
  iqmp : Option ℕ
deriving DecidableEq

/-- Result of `rsa2_createkey`: a key, the NULL-key sentinel, or a crash
(dereference of a NULL or NULL-derived pointer, undefined behaviour in C). -/
inductive CreateResult where
  | ok (key : RSAKeyW)
  | nullkey
  | crash
deriving DecidableEq

/-- Result of running `rsa_verify` on a possibly partially-populated key. -/
inductive VerifyWRes where
  | crash
  | res (ok : Bool) (key : RSAKeyW)
deriving DecidableEq

/-- Embedding of `rsa2_newkey(self, data, len)`: parse an "ssh-rsa" public blob.  Returns
`none` (the C NULL) on a bad name string or a missing mpint.  (The C code
reads both mpints and then tests `!exponent || !modulus`; the outcome is the
same.) -/
def rsa2_newkey (data : List ℕ) : Option RSAKeyW :=
  match getstring data with
  | (none, _) => none
  | (some name, rest) =>
    if name ≠ sshrsaId then none
    else
      match getmp rest with
      | (none, _) => none
      | (some e, rest2) =>
        match getmp rest2 with
        | (none, _) => none
        | (some n, _) => some ⟨some n, some e, none, none, none, none⟩

/-- Embedding of `rsa_verify` as invoked on a codec-built key with nullable fields.
Crashes exactly where the C code would dereference a NULL bignum
(`bigmul`, `modmul`, `freebn` on a missing field). -/
def rsa_verify_w (key : RSAKeyW) : VerifyWRes :=
  match key.p, key.q, key.modulus with
  | some p, some q, some n =>
    if p * q ≠ n then .res false key
    else
      match key.exponent, key.private_exponent with
      | some e, some d =>
        if e * d % (p - 1) ≠ 1 then .res false key
        else if e * d % (q - 1) ≠ 1 then .res false key
        else if p ≤ q then
          match key.iqmp with
          | none => .crash
          | some _ =>
            let key2 : RSAKeyW := { key with p := some q, q := some p }
            match modinv p q with
            | none => .res false { key2 with iqmp := none }
            | some v =>
              let key3 : RSAKeyW := { key2 with iqmp := some v }
              if v * p % q = 1 then .res true key3 else .res false key3
        else
          match key.iqmp with
          | none => .crash
          | some i => if i * q % p = 1 then .res true key else .res false key
      | _, _ => .crash
  | _, _, _ => .crash

/-- Embedding of `rsa2_createkey(self, pub_blob, pub_len, priv_blob, priv_len)`.
The C code applies `FROMFIELD` to the result of `rsa2_newkey` and writes a
field through it without a NULL check, so a malformed public blob is a crash,
not a sentinel.  The four private mpints are read with `getmp` (missing ones
leave NULL fields) and `rsa_verify` is called on the result. -/
def rsa2_createkey (pub priv : List ℕ) : CreateResult :=
  match rsa2_newkey pub with
  | none => .crash
  | some rsa =>
    let r1 := getmp priv
    let r2 := getmp r1.2
    let r3 := getmp r2.2
    let r4 := getmp r3.2
    let rsa2 : RSAKeyW :=
      { rsa with private_exponent := r1.1, p := r2.1, q := r3.1, iqmp := r4.1 }
    match rsa_verify_w rsa2 with
    | .crash => .crash
    | .res ok key2 => if ok then .ok key2 else .nullkey

/-! ## Concrete values used by witnesses and counterexamples -/

/-- A stand-in for the external SHA-1 collaborator with all-zero digests,
used to instantiate hash-parameterised statements on concrete inputs. -/
def zeroHash : List ℕ → List ℕ := fun _ => List.replicate 20 0

/-- Witness private key: p = 2^521 - 1 (Mersenne prime), q = 3, e = 65537,
d = e⁻¹ mod (p-1), iqmp = 3⁻¹ mod p = (2^522 - 1) / 3. -/
def witP : ℕ := 2 ^ 521 - 1

/-- Witness prime q. -/
def witQ : ℕ := 3

/-- Witness private exponent d (65537⁻¹ modulo 2^521 - 2). -/
def witD : ℕ := 5155328233496318390256865764810548697290840245466729669258087920880340553538954146776874404297340568416582885358721232128614872261196790492751513654940106623

/-- Witness CRT coefficient iqmp ((2^522 - 1) / 3). -/
def witIqmp : ℕ := 4576531773420406476654600532720928811512956866762203606262975639457028788931770701415039760440969703318197540927653905358081325333144429208382685527410038101

/-- Witness key record. -/
def witKey : RSAKey :=
  ⟨witP * witQ, 65537, witD, witP, witQ, witIqmp, 0, 0, none⟩

/-- Counterexample key for the sign/verify round-trip claim: q = 2 and a
composite p = 2^296 + 1; it satisfies every invariant the claim lists. -/
def cexKey : RSAKey :=
  ⟨2 ^ 297 + 2, 1, 1, 2 ^ 296 + 1, 2, 2 ^ 295 + 1, 0, 0, none⟩

/-! ## Lemmas: bit counts, bytes, serialisation -/

theorem bitlenAux_lt : ∀ fuel n, n ≤ fuel → n < 2 ^ bitlenAux fuel n := by
  intro fuel
  induction fuel with
  | zero => intro n h; interval_cases n; simp [bitlenAux]
  | succ fuel ih =>
    intro n h
    rw [bitlenAux]
    split
    · simp_all
    · have h2 : n / 2 ≤ fuel := by omega
      have h3 := ih (n / 2) h2
      rw [pow_succ]
      omega

theorem bitlenAux_zero (fuel : ℕ) : bitlenAux fuel 0 = 0 := by
  cases fuel <;> simp [bitlenAux]

theorem bitlenAux_le : ∀ fuel n, n ≤ fuel → n ≠ 0 →
    2 ^ (bitlenAux fuel n - 1) ≤ n := by
  intro fuel
  induction fuel with
  | zero => intro n h hn; omega
  | succ fuel ih =>
    intro n h hn
    rw [bitlenAux]
    rw [if_neg hn]
    rcases Nat.eq_zero_or_pos (n / 2) with h0 | hpos
    · rw [h0, bitlenAux_zero]
      have : 1 ≤ n := by omega
      simpa using this
    · have h2 : n / 2 ≤ fuel := by omega
      have h3 := ih (n / 2) h2 (by omega)
      have h4 : 1 ≤ bitlenAux fuel (n / 2) := by
        by_contra hb
        have hz : bitlenAux fuel (n / 2) = 0 := by omega
        have hlt := bitlenAux_lt fuel (n / 2) h2
        rw [hz, pow_zero] at hlt
        omega
      have h5 : bitlenAux fuel (n / 2) + 1 - 1 = (bitlenAux fuel (n / 2) - 1) + 1 := by
        omega
      rw [h5, pow_succ]
      omega

theorem bignum_bitcount_lt (n : ℕ) : n < 2 ^ bignum_bitcount n :=
  bitlenAux_lt n n le_rfl

theorem bignum_bitcount_le (n : ℕ) (h : n ≠ 0) : 2 ^ (bignum_bitcount n - 1) ≤ n :=
  bitlenAux_le n n le_rfl h

theorem bignum_bitcount_pos (n : ℕ) (h : n ≠ 0) : 0 < bignum_bitcount n := by
  by_contra hb
  have h0 : bignum_bitcount n = 0 := by omega
  have := bignum_bitcount_lt n
  rw [h0] at this
  simp at this
  omega

theorem bignum_bitcount_mono {m n : ℕ} (h : m ≤ n) :
    bignum_bitcount m ≤ bignum_bitcount n := by
  rcases Nat.eq_zero_or_pos m with h0 | hpos
  · subst h0
    simp [bignum_bitcount, bitlenAux_zero]
  · have h1 := bignum_bitcount_le m (by omega)
    have h2 := bignum_bitcount_lt n
    have h3 : 2 ^ (bignum_bitcount m - 1) < 2 ^ bignum_bitcount n := by omega
    have h4 := (Nat.pow_lt_pow_iff_right (by norm_num : 1 < 2)).mp h3
    have h5 := bignum_bitcount_pos m (by omega)
    omega

theorem bignum_byte_lt (b i : ℕ) : bignum_byte b i < 256 :=
  Nat.mod_lt _ (by norm_num)

theorem bignum_byte_eq_zero {b : ℕ} (i : ℕ) (h : b < 256 ^ i) :
    bignum_byte b i = 0 := by
  unfold bignum_byte
  rw [Nat.div_eq_of_lt h]

theorem bignum_from_bytes_nil : bignum_from_bytes [] = 0 := rfl

theorem bignum_from_bytes_foldl (l : List ℕ) (a : ℕ) :
    l.foldl (fun x b => x * 256 + b) a = a * 256 ^ l.length + bignum_from_bytes l := by
  induction l generalizing a with
  | nil => simp [bignum_from_bytes]
  | cons x xs ih =>
    show xs.foldl _ (a * 256 + x) = _
    rw [ih (a * 256 + x)]
    have hx : bignum_from_bytes (x :: xs) = xs.foldl (fun x b => x * 256 + b) x := by
      show xs.foldl _ (0 * 256 + x) = _
      norm_num
    rw [hx, ih x]
    simp [List.length_cons, pow_succ]
    ring

theorem bignum_from_bytes_cons (x : ℕ) (xs : List ℕ) :
    bignum_from_bytes (x :: xs) = x * 256 ^ xs.length + bignum_from_bytes xs := by
  show xs.foldl _ (0 * 256 + x) = _
  rw [show (0 : ℕ) * 256 + x = x by ring, bignum_from_bytes_foldl]

theorem bignum_from_bytes_lt : ∀ l : List ℕ, (∀ b ∈ l, b < 256) →
    bignum_from_bytes l < 256 ^ l.length := by
  intro l
  induction l with
  | nil => intro _; simp [bignum_from_bytes]
  | cons x xs ih =>
    intro h
    rw [bignum_from_bytes_cons]
    have h1 := ih (fun b hb => h b (List.mem_cons_of_mem x hb))
    have h2 : x < 256 := h x (List.mem_cons_self x xs)
    have h3 : x * 256 ^ xs.length ≤ 255 * 256 ^ xs.length :=
      Nat.mul_le_mul_right _ (by omega)
    simp only [List.length_cons, pow_succ]
    omega

theorem bignum_byte_from_bytes : ∀ l : List ℕ, (∀ b ∈ l, b < 256) →
    ∀ i, i < l.length →
    bignum_byte (bignum_from_bytes l) i = l.getD (l.length - 1 - i) 0 := by
  intro l
  induction l with
  | nil => intro _ i hi; simp at hi
  | cons x xs ih =>
    intro h i hi
    have hxs : ∀ b ∈ xs, b < 256 := fun b hb => h b (List.mem_cons_of_mem x hb)
    have hx : x < 256 := h x (List.mem_cons_self x xs)
    have hV := bignum_from_bytes_lt xs hxs
    rw [bignum_from_bytes_cons]
    rcases Nat.lt_or_ge i xs.length with hlt | hge
    · -- byte inside the tail
      have hsplit : x * 256 ^ xs.length =
          256 ^ i * (x * 256 ^ (xs.length - 1 - i) * 256) := by
        have hp : 256 ^ xs.length = 256 ^ i * (256 ^ (xs.length - 1 - i) * 256) := by
          rw [← pow_succ, ← pow_add]
          congr 1
          omega
        rw [hp]
        ring
      unfold bignum_byte
      rw [hsplit, Nat.mul_add_div (Nat.pos_pow_of_pos i (by norm_num)),
        Nat.add_comm, Nat.add_mul_mod_self_right]
      have hidx : (x :: xs).length - 1 - i = (xs.length - 1 - i) + 1 := by
        simp only [List.length_cons]
        omega
      rw [hidx, List.getD_cons_succ]
      exact ih hxs i hlt
    · -- i = xs.length: the head byte
      have hieq : i = xs.length := by
        simp only [List.length_cons] at hi
        omega
      subst hieq
      have hsplit : x * 256 ^ xs.length + bignum_from_bytes xs =
          256 ^ xs.length * x + bignum_from_bytes xs := by ring_nf
      unfold bignum_byte
      rw [hsplit, Nat.mul_add_div (Nat.pos_pow_of_pos xs.length (by norm_num)),
        Nat.div_eq_of_lt hV, Nat.add_zero, Nat.mod_eq_of_lt hx]
      have hidx : (x :: xs).length - 1 - xs.length = 0 := by
        simp only [List.length_cons]
        omega
      rw [hidx, List.getD_cons_zero]


theorem bytes_be_length (v c : ℕ) : (bytes_be v c).length = c := by
  simp [bytes_be]

theorem bytes_be_mem_lt (v c : ℕ) : ∀ b ∈ bytes_be v c, b < 256 := by
  intro b hb
  simp only [bytes_be, List.mem_map] at hb
  obtain ⟨i, _, rfl⟩ := hb
  exact bignum_byte_lt v _

theorem bytes_be_succ (v c : ℕ) :
    bytes_be v (c + 1) = bignum_byte v c :: bytes_be v c := by
  unfold bytes_be
  rw [List.range_succ_eq_map, List.map_cons, List.map_map]
  congr 1
  apply List.map_congr_left
  intro i hi
  simp only [Function.comp_apply]
  congr 1
  omega

theorem bignum_from_bytes_bytes_be (v : ℕ) : ∀ c,
    bignum_from_bytes (bytes_be v c) = v % 256 ^ c := by
  intro c
  induction c with
  | zero => simp [bytes_be, bignum_from_bytes, Nat.mod_one]
  | succ c ih =>
    rw [bytes_be_succ, bignum_from_bytes_cons, bytes_be_length, ih]
    rw [pow_succ, Nat.mod_mul]
    unfold bignum_byte
    ring

theorem bignum_from_bytes_bytes_be_eq (v c : ℕ) (h : v < 256 ^ c) :
    bignum_from_bytes (bytes_be v c) = v := by
  rw [bignum_from_bytes_bytes_be, Nat.mod_eq_of_lt h]

theorem modpowAux_eq (b m : ℕ) : ∀ fuel e, e ≤ fuel → modpowAux b m fuel e = b ^ e % m := by
  intro fuel
  induction fuel with
  | zero =>
    intro e he
    interval_cases e
    simp [modpowAux]
  | succ fuel ih =>
    intro e he
    match e with
    | 0 => simp [modpowAux]
    | e + 1 =>
      rw [modpowAux]
      have h2 : (e + 1) / 2 ≤ fuel := by omega
      rw [ih _ h2]
      split
      · next hodd =>
        have hsum : 2 * ((e + 1) / 2) + 1 = e + 1 := by omega
        conv_rhs => rw [← hsum]
        rw [two_mul, pow_succ, pow_add]
        exact ((Nat.mod_modEq _ m).mul (Nat.mod_modEq _ m)).mul_right b
      · next heven =>
        have hsum : 2 * ((e + 1) / 2) = e + 1 := by omega
        conv_rhs => rw [← hsum]
        rw [two_mul, pow_add]
        exact (Nat.mod_modEq _ m).mul (Nat.mod_modEq _ m)

theorem modpow_eq (b e m : ℕ) : modpow b e m = b ^ e % m :=
  modpowAux_eq b m e e le_rfl

theorem GET_32BIT_put_uint32 (v : ℕ) (rest : List ℕ) (h : v < 2 ^ 32) :
    GET_32BIT (put_uint32 v ++ rest) = v := by
  simp only [put_uint32, List.cons_append, List.nil_append, GET_32BIT]
  omega

theorem getstring_put (s t : List ℕ) (h : s.length < 2 ^ 31) :
    getstring (put_stringz s ++ t) = (some s, t) := by
  unfold getstring put_stringz
  rw [List.append_assoc]
  have h32 : s.length < 2 ^ 32 := by omega
  rw [GET_32BIT_put_uint32 _ _ h32]
  have hL : (put_uint32 s.length ++ (s ++ t)).length = 4 + (s.length + t.length) := by
    simp [put_uint32]
    omega
  rw [hL, if_neg (by omega), if_neg (by omega)]
  have hdrop : (put_uint32 s.length ++ (s ++ t)).drop 4 = s ++ t :=
    List.drop_left' (by simp [put_uint32])
  rw [hdrop]
  rw [if_neg (by simp only [List.length_append]; omega)]
  rw [List.take_left' rfl, List.drop_left' rfl]

theorem getmp_put (s t : List ℕ) (h : s.length < 2 ^ 31) :
    getmp (put_stringz s ++ t) = (some (bignum_from_bytes s), t) := by
  unfold getmp
  rw [getstring_put s t h]

/-! ## Number-theoretic lemmas for the CRT engine -/

theorem pow_mod_reduce_prime {p exp : ℕ} (base : ℕ) (hp : p.Prime)
    (hne : exp % (p - 1) ≠ 0) :
    base ^ (exp % (p - 1)) ≡ base ^ exp [MOD p] := by
  by_cases hdvd : p ∣ base
  · have h0 : base ≡ 0 [MOD p] := Nat.modEq_zero_iff_dvd.mpr hdvd
    have h2 : exp ≠ 0 := by
      intro h
      rw [h] at hne
      simp at hne
    calc base ^ (exp % (p - 1))
        ≡ 0 ^ (exp % (p - 1)) [MOD p] := h0.pow _
      _ = 0 := zero_pow hne
      _ = 0 ^ exp := (zero_pow h2).symm
      _ ≡ base ^ exp [MOD p] := (h0.pow _).symm
  · have hco : Nat.Coprime base p := ((hp.coprime_iff_not_dvd).mpr hdvd).symm
    have he := Nat.ModEq.pow_totient hco
    rw [Nat.totient_prime hp] at he
    have h1k : (1 : ℕ) ≡ (base ^ (p - 1)) ^ (exp / (p - 1)) [MOD p] := by
      have h := (he.symm).pow (exp / (p - 1))
      rwa [one_pow] at h
    calc base ^ (exp % (p - 1))
        = 1 * base ^ (exp % (p - 1)) := (one_mul _).symm
      _ ≡ (base ^ (p - 1)) ^ (exp / (p - 1)) * base ^ (exp % (p - 1)) [MOD p] :=
          h1k.mul_right _
      _ = base ^ ((p - 1) * (exp / (p - 1)) + exp % (p - 1)) := by
          rw [pow_add, pow_mul]
      _ = base ^ exp := by rw [Nat.div_add_mod]

theorem crt_modpow_correct {p q n iqmp : ℕ} (base exp : ℕ)
    (hp : p.Prime) (hq : q.Prime) (hqp : q < p) (hn : n = p * q)
    (hiq : iqmp * q % p = 1)
    (hpe : exp % (p - 1) ≠ 0) (hqe : exp % (q - 1) ≠ 0) :
    crt_modpow base exp n p q iqmp = base ^ exp % n := by
  have hp1 : 1 < p := hp.one_lt
  have hq1 : 1 < q := hq.one_lt
  simp only [crt_modpow, modpow_eq]
  set P := base ^ (exp % (p - 1)) % p with hPdef
  set Q := base ^ (exp % (q - 1)) % q with hQdef
  set P2 := if P < Q then P + p else P with hP2def
  have hQlt : Q < q := Nat.mod_lt _ (by omega)
  have hP2ge : Q ≤ P2 := by
    rw [hP2def]
    split <;> omega
  have hP2modp : P2 ≡ P [MOD p] := by
    rw [hP2def]
    split
    · exact Nat.add_modEq_right
    · rfl
  have hiqme : iqmp * q ≡ 1 [MOD p] := by
    show iqmp * q % p = 1 % p
    rw [hiq, Nat.mod_eq_of_lt hp1]
  have hret0p : iqmp * q * (P2 - Q) + Q ≡ base ^ exp [MOD p] := by
    calc iqmp * q * (P2 - Q) + Q
        ≡ 1 * (P2 - Q) + Q [MOD p] := (hiqme.mul_right _).add_right _
      _ = P2 - Q + Q := by rw [one_mul]
      _ = P2 := by omega
      _ ≡ P [MOD p] := hP2modp
      _ ≡ base ^ (exp % (p - 1)) [MOD p] := Nat.mod_modEq _ _
      _ ≡ base ^ exp [MOD p] := pow_mod_reduce_prime base hp hpe
  have hret0q : iqmp * q * (P2 - Q) + Q ≡ base ^ exp [MOD q] := by
    have h0 : iqmp * q * (P2 - Q) ≡ 0 [MOD q] :=
      Nat.modEq_zero_iff_dvd.mpr ⟨iqmp * (P2 - Q), by ring⟩
    calc iqmp * q * (P2 - Q) + Q
        ≡ 0 + Q [MOD q] := h0.add_right _
      _ = Q := by omega
      _ ≡ base ^ (exp % (q - 1)) [MOD q] := Nat.mod_modEq _ _
      _ ≡ base ^ exp [MOD q] := pow_mod_reduce_prime base hq hqe
  have hco : Nat.Coprime p q := (Nat.coprime_primes hp hq).mpr (by omega)
  have hfin : iqmp * q * (P2 - Q) + Q ≡ base ^ exp [MOD n] := by
    rw [hn]
    exact (Nat.modEq_and_modEq_iff_modEq_mul hco).mp ⟨hret0p, hret0q⟩
  exact hfin

theorem pow_ed_identity_prime {p ed : ℕ} (x : ℕ) (hp : p.Prime)
    (hed : ed % (p - 1) = 1) :
    x ^ ed ≡ x [MOD p] := by
  have h1 : ed = (p - 1) * (ed / (p - 1)) + 1 := by
    conv_lhs => rw [← Nat.div_add_mod ed (p - 1)]
    rw [hed]
  by_cases hdvd : p ∣ x
  · have h0 : x ≡ 0 [MOD p] := Nat.modEq_zero_iff_dvd.mpr hdvd
    have hpos : ed ≠ 0 := by omega
    calc x ^ ed ≡ 0 ^ ed [MOD p] := h0.pow _
      _ = 0 := zero_pow hpos
      _ ≡ x [MOD p] := h0.symm
  · have hco : Nat.Coprime x p := ((hp.coprime_iff_not_dvd).mpr hdvd).symm
    have he := Nat.ModEq.pow_totient hco
    rw [Nat.totient_prime hp] at he
    have h1k : (x ^ (p - 1)) ^ (ed / (p - 1)) ≡ 1 [MOD p] := by
      have h := he.pow (ed / (p - 1))
      rwa [one_pow] at h
    calc x ^ ed = (x ^ (p - 1)) ^ (ed / (p - 1)) * x := by
          conv_lhs => rw [h1]
          rw [pow_add, pow_mul, pow_one]
      _ ≡ 1 * x [MOD p] := h1k.mul_right x
      _ = x := one_mul x

theorem rsa_identity {p q n e d : ℕ} (x : ℕ)
    (hp : p.Prime) (hq : q.Prime) (hqp : q < p) (h2q : 2 < q) (hn : n = p * q)
    (hedp : e * d ≡ 1 [MOD p - 1]) (hedq : e * d ≡ 1 [MOD q - 1]) :
    x ^ (e * d) ≡ x [MOD n] := by
  have hped : e * d % (p - 1) = 1 := by
    have h := hedp
    rw [Nat.ModEq] at h
    rwa [Nat.mod_eq_of_lt (by omega : (1 : ℕ) < p - 1)] at h
  have hqed : e * d % (q - 1) = 1 := by
    have h := hedq
    rw [Nat.ModEq] at h
    rwa [Nat.mod_eq_of_lt (by omega : (1 : ℕ) < q - 1)] at h
  have hco : Nat.Coprime p q := (Nat.coprime_primes hp hq).mpr (by omega)
  rw [hn]
  exact (Nat.modEq_and_modEq_iff_modEq_mul hco).mp
    ⟨pow_ed_identity_prime x hp hped, pow_ed_identity_prime x hq hqed⟩

theorem factor_mod_ne_zero {m a b : ℕ} (hm : 1 < m) (h : a * b ≡ 1 [MOD m]) :
    a % m ≠ 0 := by
  intro h0
  have hdvd : m ∣ a * b := (Nat.dvd_of_mod_eq_zero h0).mul_right b
  have h1 : a * b % m = 0 := (Nat.mod_eq_zero_of_dvd hdvd)
  have h2 : (1 : ℕ) % m = 0 := by
    rw [← h]
    exact h1
  rw [Nat.mod_eq_of_lt hm] at h2
  exact one_ne_zero h2

theorem rsa_privkey_op_eq (key : RSAKey) (x r rinv : ℕ)
    (hp : key.p.Prime) (hq : key.q.Prime) (hqp : key.q < key.p) (h2q : 2 < key.q)
    (hn : key.modulus = key.p * key.q)
    (hiq : key.iqmp * key.q % key.p = 1)
    (hedp : key.exponent * key.private_exponent ≡ 1 [MOD key.p - 1])
    (hedq : key.exponent * key.private_exponent ≡ 1 [MOD key.q - 1])
    (hr : r * rinv ≡ 1 [MOD key.modulus]) :
    rsa_privkey_op x key r rinv =
      x ^ key.private_exponent % key.modulus := by
  have h3p : 3 < key.p := by
    have := hp.two_le
    have := hq.two_le
    omega
  have hep : key.exponent % (key.p - 1) ≠ 0 :=
    factor_mod_ne_zero (by omega) hedp
  have heq2 : key.exponent % (key.q - 1) ≠ 0 :=
    factor_mod_ne_zero (by omega) hedq
  have hdp : key.private_exponent % (key.p - 1) ≠ 0 :=
    factor_mod_ne_zero (by omega) (by rwa [mul_comm] at hedp)
  have hdq : key.private_exponent % (key.q - 1) ≠ 0 :=
    factor_mod_ne_zero (by omega) (by rwa [mul_comm] at hedq)
  simp only [rsa_privkey_op, modmul]
  rw [crt_modpow_correct r key.exponent hp hq hqp hn hiq hep heq2,
    crt_modpow_correct _ key.private_exponent hp hq hqp hn hiq hdp hdq]
  set n := key.modulus
  set e := key.exponent
  set d := key.private_exponent
  have hre : r ^ (e * d) ≡ r [MOD n] := rsa_identity r hp hq hqp h2q hn hedp hedq
  calc (x * (r ^ e % n) % n) ^ d % n * rinv % n
      = ((x * (r ^ e % n) % n) ^ d % n * rinv) % n := rfl
    _ = (x ^ d) % n := by
        have step : (x * (r ^ e % n) % n) ^ d % n * rinv ≡ x ^ d [MOD n] := by
          calc (x * (r ^ e % n) % n) ^ d % n * rinv
              ≡ (x * (r ^ e % n) % n) ^ d * rinv [MOD n] :=
                (Nat.mod_modEq _ n).mul_right rinv
            _ ≡ (x * r ^ e) ^ d * rinv [MOD n] := by
                have h1 : x * (r ^ e % n) ≡ x * r ^ e [MOD n] :=
                  (Nat.mod_modEq _ n).mul_left x
                exact (((Nat.mod_modEq _ n).trans h1).pow d).mul_right rinv
            _ = x ^ d * r ^ (e * d) * rinv := by rw [mul_pow, ← pow_mul]
            _ ≡ x ^ d * r * rinv [MOD n] := (hre.mul_left (x ^ d)).mul_right rinv
            _ = x ^ d * (r * rinv) := by ring
            _ ≡ x ^ d * 1 [MOD n] := hr.mul_left (x ^ d)
            _ = x ^ d := by ring
        exact step

/-! ## List index helpers -/

theorem getD_append_lt {l1 l2 : List ℕ} {j : ℕ} (h : j < l1.length) :
    (l1 ++ l2).getD j 0 = l1.getD j 0 := by
  simp only [List.getD_eq_getElem?_getD]
  rw [List.getElem?_append_left h]

theorem getD_append_ge {l1 l2 : List ℕ} {j : ℕ} (h : l1.length ≤ j) :
    (l1 ++ l2).getD j 0 = l2.getD (j - l1.length) 0 := by
  simp only [List.getD_eq_getElem?_getD]
  rw [List.getElem?_append_right h]

theorem getD_replicate_lt {a j n : ℕ} (h : j < n) :
    (List.replicate n a).getD j 0 = a := by
  simp only [List.getD_eq_getElem?_getD]
  rw [List.getElem?_replicate]
  simp [h]

theorem all_range_iff (k : ℕ) (f : ℕ → Bool) :
    ((List.range k).all f = true) ↔ ∀ t, t < k → f t = true := by
  simp [List.all_eq_true, List.mem_range]

/-! ## Equivalence of `rsa2_verifysig` with its specified layout -/

theorem rsa2_verifysig_of_parse {sha1 : List ℕ → List ℕ} {key : RSAKey}
    {sig data rest rest2 : List ℕ} {s : ℕ}
    (hgs : getstring sig = (some sshrsaId, rest))
    (hmp : getmp rest = (some s, rest2)) :
    rsa2_verifysig sha1 key sig data =
      if rsa2_verifysig_checks sha1 key s data then 1 else 0 := by
  unfold rsa2_verifysig
  rw [hgs]
  simp [hmp]

theorem rsa2_verifysig_checks_iff (sha1 : List ℕ → List ℕ) (key : RSAKey)
    (s : ℕ) (data : List ℕ) :
    rsa2_verifysig_checks sha1 key s data = true ↔
      (let m := s ^ key.exponent % key.modulus
       let bytes := (bignum_bitcount key.modulus + 7) / 8
       bignum_byte m (bytes - 1) = 0 ∧
       bignum_byte m (bytes - 2) = 1 ∧
       (∀ i, 36 ≤ i → i ≤ bytes - 3 → bignum_byte m i = 0xFF) ∧
       (∀ i, 20 ≤ i → i ≤ 35 → bignum_byte m i = asn1_weird_stuff.getD (35 - i) 0) ∧
       (∀ i, i ≤ 19 → bignum_byte m i = (sha1 data).getD (19 - i) 0)) := by
  unfold rsa2_verifysig_checks
  rw [modpow_eq]
  simp only [ASN1_LEN, Bool.and_eq_true, beq_iff_eq, all_range_iff]
  set m := s ^ key.exponent % key.modulus
  set bytes := (bignum_bitcount key.modulus + 7) / 8
  constructor
  · rintro ⟨⟨⟨⟨h1, h2⟩, h3⟩, h4⟩, h5⟩
    refine ⟨h1, h2, ?_, ?_, ?_⟩
    · intro i h36 hle
      have ht : i - 36 < bytes - 2 - (20 + 16) := by omega
      have := h3 (i - 36) ht
      rwa [show 20 + 16 + (i - 36) = i by omega] at this
    · intro i h20 h35
      have hj : 35 - i < 16 := by omega
      have := h4 (35 - i) hj
      rwa [show 20 + 16 - 1 - (35 - i) = i by omega] at this
    · intro i h19
      have hj : 19 - i < 20 := by omega
      have := h5 (19 - i) hj
      rwa [show 19 - (19 - i) = i by omega] at this
  · rintro ⟨h1, h2, h3, h4, h5⟩
    refine ⟨⟨⟨⟨h1, h2⟩, ?_⟩, ?_⟩, ?_⟩
    · intro t ht
      exact h3 (20 + 16 + t) (by omega) (by omega)
    · intro j hj
      have := h4 (20 + 16 - 1 - j) (by omega) (by omega)
      rwa [show 35 - (20 + 16 - 1 - j) = j by omega] at this
    · intro j hj
      have := h5 (19 - j) (by omega)
      rwa [show 19 - (19 - j) = j by omega] at this

theorem rsa2_verifysig_iff (sha1 : List ℕ → List ℕ) (key : RSAKey)
    (sig data : List ℕ) :
    rsa2_verifysig sha1 key sig data = 1 ↔
      rsa2_verifysig_claim sha1 key sig data := by
  rcases hgs : getstring sig with ⟨os, rest⟩
  cases os with
  | none =>
    unfold rsa2_verifysig rsa2_verifysig_claim
    simp [hgs]
  | some name =>
    by_cases hname : name = sshrsaId
    · subst hname
      rcases hmp : getmp rest with ⟨om, rest2⟩
      cases om with
      | none =>
        unfold rsa2_verifysig rsa2_verifysig_claim
        simp [hgs, hmp]
      | some s =>
        rw [rsa2_verifysig_of_parse hgs hmp]
        constructor
        · intro h
          have hc : rsa2_verifysig_checks sha1 key s data = true := by
            by_contra hb
            rw [if_neg hb] at h
            omega
          refine ⟨sshrsaId, rest, s, rest2, hgs, rfl, hmp, ?_⟩
          exact (rsa2_verifysig_checks_iff sha1 key s data).mp hc
        · rintro ⟨name1, rest1, s1, rest21, hgs1, hname1, hmp1, hcond⟩
          rw [hgs] at hgs1
          rw [Prod.mk.injEq, Option.some.injEq] at hgs1
          obtain ⟨hna, hre⟩ := hgs1
          subst hre
          rw [hmp] at hmp1
          rw [Prod.mk.injEq, Option.some.injEq] at hmp1
          obtain ⟨hs1, _⟩ := hmp1
          subst hs1
          rw [if_pos ((rsa2_verifysig_checks_iff sha1 key s data).mpr hcond)]
    · unfold rsa2_verifysig rsa2_verifysig_claim
      simp only [hgs]
      constructor
      · intro h
        rw [if_pos hname] at h
        omega
      · rintro ⟨name1, rest1, s1, rest21, hgs1, hname1, _⟩
        rw [Prod.mk.injEq, Option.some.injEq] at hgs1
        obtain ⟨hna, _⟩ := hgs1
        exact absurd (hna ▸ hname1) hname

/-! ## Layout of the PKCS#1 v1.5 encoded message built by `rsa2_sign` -/

theorem asn1_weird_stuff_length : asn1_weird_stuff.length = 16 := rfl

theorem rsa2_sign_encode_length (n : ℕ) (hash : List ℕ) (h20 : hash.length = 20)
    (hsz : 37 ≤ (bignum_bitcount n - 1) / 8) :
    (rsa2_sign_encode n hash).length = (bignum_bitcount n - 1) / 8 := by
  simp [rsa2_sign_encode, ASN1_LEN, asn1_weird_stuff, h20]
  omega

theorem rsa2_sign_encode_mem (n : ℕ) (hash : List ℕ)
    (hhb : ∀ b ∈ hash, b < 256) :
    ∀ b ∈ rsa2_sign_encode n hash, b < 256 := by
  intro b hb
  simp only [rsa2_sign_encode, List.mem_cons, List.mem_append,
    List.mem_replicate] at hb
  rcases hb with rfl | (⟨_, rfl⟩ | ha) | hh
  · norm_num
  · norm_num
  · simp only [asn1_weird_stuff, List.mem_cons, List.not_mem_nil, or_false] at ha
    rcases ha with rfl | rfl | rfl | rfl | rfl | rfl | rfl | rfl | rfl | rfl | rfl |
      rfl | rfl | rfl | rfl | rfl <;> norm_num
  · exact hhb b hh

theorem rsa2_sign_encode_getD (n : ℕ) (hash : List ℕ)
    (hsz : 37 ≤ (bignum_bitcount n - 1) / 8) (j : ℕ) :
    (rsa2_sign_encode n hash).getD j 0 =
      if j = 0 then 1
      else if j < (bignum_bitcount n - 1) / 8 - 36 then 255
      else if j < (bignum_bitcount n - 1) / 8 - 20 then
        asn1_weird_stuff.getD (j - ((bignum_bitcount n - 1) / 8 - 36)) 0
      else hash.getD (j - ((bignum_bitcount n - 1) / 8 - 20)) 0 := by
  unfold rsa2_sign_encode
  simp only [ASN1_LEN]
  set nb := (bignum_bitcount n - 1) / 8 with hnb
  have hrep : (List.replicate (nb - 20 - 16 - 1) (255 : ℕ)).length = nb - 37 := by
    simp
    omega
  cases j with
  | zero => simp
  | succ j' =>
    rw [List.getD_cons_succ, if_neg (by omega)]
    by_cases h1 : j' < nb - 37
    · rw [getD_append_lt (by rw [List.length_append, hrep, asn1_weird_stuff_length]; omega),
        getD_append_lt (by rw [hrep]; omega),
        getD_replicate_lt (show j' < nb - 20 - 16 - 1 by omega),
        if_pos (show j' + 1 < nb - 36 by omega)]
    · by_cases h2 : j' < nb - 21
      · rw [getD_append_lt (by rw [List.length_append, hrep, asn1_weird_stuff_length]; omega),
          getD_append_ge (by rw [hrep]; omega), hrep,
          if_neg (show ¬j' + 1 < nb - 36 by omega),
          if_pos (show j' + 1 < nb - 20 by omega)]
        congr 1
        omega
      · rw [getD_append_ge (by rw [List.length_append, hrep, asn1_weird_stuff_length]; omega),
          List.length_append, hrep, asn1_weird_stuff_length,
          if_neg (show ¬j' + 1 < nb - 36 by omega),
          if_neg (show ¬j' + 1 < nb - 20 by omega)]
        congr 1
        omega

/-- C1 (amended): sign/verify round-trip.  For every private key whose
invariants hold and whose p and q are distinct odd primes, every blinding
draw accepted by the sampling loop, and every byte string, verification of
the signature produced by `rsa2_sign` succeeds.  The two extra size
hypotheses are the `assert` in `rsa2_sign` (the modulus is large enough for
the PKCS#1 layout) and the 32-bit length words of the wire format. -/
theorem C1_sign_verify_roundtrip (sha1 : List ℕ → List ℕ) (key : RSAKey)
    (data : List ℕ) (r rinv : ℕ)
    (hp : key.p.Prime) (hq : key.q.Prime) (hqp : key.q < key.p) (h2q : 2 < key.q)
    (hn : key.modulus = key.p * key.q)
    (hiq : key.iqmp * key.q % key.p = 1)
    (hedp : key.exponent * key.private_exponent ≡ 1 [MOD key.p - 1])
    (hedq : key.exponent * key.private_exponent ≡ 1 [MOD key.q - 1])
    (hr : r * rinv ≡ 1 [MOD key.modulus])
    (hsz : 37 ≤ (bignum_bitcount key.modulus - 1) / 8)
    (hfit : bignum_bitcount key.modulus ≤ 2 ^ 31)
    (h20 : (sha1 data).length = 20)
    (hhb : ∀ b ∈ sha1 data, b < 256) :
    rsa2_verifysig sha1 key (rsa2_sign sha1 key data r rinv) data = 1 := by
  have hn0 : key.modulus ≠ 0 := by
    have h2 := hp.two_le
    have h3 := hq.two_le
    rw [hn]
    exact Nat.mul_ne_zero (by omega) (by omega)
  have hnpos : 0 < key.modulus := Nat.pos_of_ne_zero hn0
  set B := bignum_bitcount key.modulus with hB
  set nb := (B - 1) / 8 with hnb
  set EM := rsa2_sign_encode key.modulus (sha1 data) with hEM
  have hEMlen : EM.length = nb := rsa2_sign_encode_length _ _ h20 hsz
  have hEMmem : ∀ b ∈ EM, b < 256 := rsa2_sign_encode_mem _ _ hhb
  set x := bignum_from_bytes EM with hx
  have hxlt : x < 256 ^ nb := by
    have h := bignum_from_bytes_lt EM hEMmem
    rwa [hEMlen] at h
  have hBpos : 0 < B := bignum_bitcount_pos _ hn0
  have hxn : x < key.modulus := by
    have h1 : (256 : ℕ) ^ nb = 2 ^ (8 * nb) := by
      rw [show (256 : ℕ) = 2 ^ 8 by norm_num, ← pow_mul]
    have h2 : 8 * nb ≤ B - 1 := by omega
    have h3 : (2 : ℕ) ^ (8 * nb) ≤ 2 ^ (B - 1) := Nat.pow_le_pow_right (by norm_num) h2
    have h4 := bignum_bitcount_le key.modulus hn0
    rw [← hB] at h4
    omega
  have hout : rsa_privkey_op x key r rinv = x ^ key.private_exponent % key.modulus :=
    rsa_privkey_op_eq key x r rinv hp hq hqp h2q hn hiq hedp hedq hr
  set out := rsa_privkey_op x key r rinv with hOut
  set onb := (bignum_bitcount out + 7) / 8 with honb
  have houtn : out < key.modulus := by
    rw [hout]
    exact Nat.mod_lt _ hnpos
  have houtB : bignum_bitcount out ≤ B := bignum_bitcount_mono (le_of_lt houtn)
  have hout256 : out < 256 ^ onb := by
    have h1 := bignum_bitcount_lt out
    have h2 : bignum_bitcount out ≤ 8 * onb := by omega
    have h3 : (2 : ℕ) ^ bignum_bitcount out ≤ 2 ^ (8 * onb) :=
      Nat.pow_le_pow_right (by norm_num) h2
    have h4 : (256 : ℕ) ^ onb = 2 ^ (8 * onb) := by
      rw [show (256 : ℕ) = 2 ^ 8 by norm_num, ← pow_mul]
    omega
  have hsig : rsa2_sign sha1 key data r rinv =
      put_stringz sshrsaId ++ (put_stringz (bytes_be out onb) ++ []) := by
    simp only [rsa2_sign]
    rw [← hEM, ← hx, ← hOut, ← honb, List.append_nil, List.append_assoc]
    congr 1
    rw [put_stringz, bytes_be_length]
  have hgs : getstring (rsa2_sign sha1 key data r rinv) =
      (some sshrsaId, put_stringz (bytes_be out onb) ++ []) := by
    rw [hsig]
    exact getstring_put _ _ (by decide)
  have honb31 : (bytes_be out onb).length < 2 ^ 31 := by
    rw [bytes_be_length]
    omega
  have hmp : getmp (put_stringz (bytes_be out onb) ++ []) = (some out, []) := by
    rw [getmp_put _ _ honb31, bignum_from_bytes_bytes_be_eq out onb hout256]
  rw [rsa2_verifysig_of_parse hgs hmp, if_pos ?_]
  rw [rsa2_verifysig_checks_iff]
  have hm : out ^ key.exponent % key.modulus = x := by
    have hme : out ^ key.exponent ≡
        x ^ (key.exponent * key.private_exponent) [MOD key.modulus] := by
      rw [hout]
      calc (x ^ key.private_exponent % key.modulus) ^ key.exponent
          ≡ (x ^ key.private_exponent) ^ key.exponent [MOD key.modulus] :=
            (Nat.mod_modEq _ _).pow _
        _ = x ^ (key.private_exponent * key.exponent) := (pow_mul x _ _).symm
        _ = x ^ (key.exponent * key.private_exponent) := by rw [mul_comm]
    have h2 : x ^ (key.exponent * key.private_exponent) ≡ x [MOD key.modulus] :=
      rsa_identity x hp hq hqp h2q hn hedp hedq
    have h3 : out ^ key.exponent ≡ x [MOD key.modulus] := hme.trans h2
    calc out ^ key.exponent % key.modulus = x % key.modulus := h3
      _ = x := Nat.mod_eq_of_lt hxn
  simp only [hm]
  have hbytes : (B + 7) / 8 = nb + 1 := by omega
  have hbyte : ∀ i, i < nb → bignum_byte x i = EM.getD (nb - 1 - i) 0 := by
    intro i hi
    have h := bignum_byte_from_bytes EM hEMmem i (by omega)
    rwa [hEMlen] at h
  have h37 : 37 ≤ nb := hsz
  refine ⟨?_, ?_, ?_, ?_, ?_⟩
  · rw [hbytes, show nb + 1 - 1 = nb by omega]
    exact bignum_byte_eq_zero nb hxlt
  · rw [hbytes, show nb + 1 - 2 = nb - 1 by omega,
      hbyte (nb - 1) (by omega), show nb - 1 - (nb - 1) = 0 by omega,
      hEM, rsa2_sign_encode_getD _ _ hsz 0]
    simp
  · intro i h36 hle
    rw [hbytes] at hle
    rw [hbyte i (by omega), hEM, rsa2_sign_encode_getD _ _ hsz (nb - 1 - i),
      if_neg (by omega), if_pos (by omega)]
  · intro i h20i h35
    rw [hbyte i (by omega), hEM, rsa2_sign_encode_getD _ _ hsz (nb - 1 - i),
      if_neg (by omega), if_neg (by omega), if_pos (by omega)]
    congr 1
    omega
  · intro i h19
    rw [hbyte i (by omega), hEM, rsa2_sign_encode_getD _ _ hsz (nb - 1 - i),
      if_neg (by omega), if_neg (by omega), if_neg (by omega)]
    congr 1
    omega

/-- Primality of the witness prime p = 2^521 - 1 (Lucas-Lehmer). -/
theorem witP_prime : Nat.Prime witP :=
  lucas_lehmer_sufficiency 521 (by norm_num) (by norm_num)

theorem C1_sign_verify_roundtrip_witness :
    rsa2_verifysig zeroHash witKey (rsa2_sign zeroHash witKey [] 1 1) [] = 1 :=
  C1_sign_verify_roundtrip zeroHash witKey [] 1 1
    witP_prime
    (by exact Nat.prime_three)
    (by decide)
    (by decide)
    rfl
    (by decide)
    (by decide)
    (by decide)
    (by decide)
    (by decide)
    (by decide)
    (by decide)
    (by decide)

/-- C1 counterexample: the key `cexKey` (q = 2, p = 2^296 + 1 composite)
satisfies every invariant listed by the claim, its blinding draw r = 1 is
accepted by the sampling loop, the signing assertion holds, and yet
verification of the signature over the empty message rejects.  (The hash
collaborator is instantiated with the all-zero stand-in.) -/
theorem C1_sign_verify_counterexample :
    cexKey.modulus = cexKey.p * cexKey.q ∧
    cexKey.exponent * cexKey.private_exponent ≡ 1 [MOD cexKey.p - 1] ∧
    cexKey.exponent * cexKey.private_exponent ≡ 1 [MOD cexKey.q - 1] ∧
    cexKey.q < cexKey.p ∧
    cexKey.iqmp * cexKey.q % cexKey.p = 1 ∧
    (1 : ℕ) * 1 ≡ 1 [MOD cexKey.modulus] ∧
    37 ≤ (bignum_bitcount cexKey.modulus - 1) / 8 ∧
    rsa2_verifysig zeroHash cexKey (rsa2_sign zeroHash cexKey [] 1 1) [] = 0 := by
  refine ⟨rfl, by decide, by decide, by decide, by decide, by decide, by decide, ?_⟩
  decide

/-- C2 counterexample: with base = 5, exp = 4, p = 5, q = 3, n = 15,
iqmp = 2, every hypothesis of the claim holds (0 ≤ base < n, p and q
distinct primes, p > q, iqmp·q ≡ 1 mod p) but `crt_modpow` returns 1 while
5^4 mod 15 = 10: the exponent reduction mod p−1 is unsound when
exp ≡ 0 (mod p−1) and p divides the base. -/
theorem C2_crt_modpow_counterexample :
    Nat.Prime 5 ∧ Nat.Prime 3 ∧ (3 : ℕ) < 5 ∧ (15 : ℕ) = 5 * 3 ∧
    (2 : ℕ) * 3 % 5 = 1 ∧ (5 : ℕ) < 15 ∧
    crt_modpow 5 4 15 5 3 2 = 1 ∧ (5 : ℕ) ^ 4 % 15 = 10 ∧
    crt_modpow 5 4 15 5 3 2 ≠ 5 ^ 4 % 15 := by
  refine ⟨by norm_num, by norm_num, by decide, by decide, by decide, by decide,
    by decide, by decide, by decide⟩

/-- C2 (amended): `crt_modpow` agrees with the plain modular exponentiation
whenever, in addition to the claim's hypotheses, the exponent is nonzero
modulo p−1 and modulo q−1 (as holds for the RSA exponents e and d of a
valid key). -/
theorem C2_crt_modpow_amended {p q n iqmp : ℕ} (base exp : ℕ)
    (_hbase : base < n)
    (hp : p.Prime) (hq : q.Prime) (hqp : q < p) (hn : n = p * q)
    (hiq : iqmp * q % p = 1)
    (hpe : exp % (p - 1) ≠ 0) (hqe : exp % (q - 1) ≠ 0) :
    crt_modpow base exp n p q iqmp = base ^ exp % n :=
  crt_modpow_correct base exp hp hq hqp hn hiq hpe hqe

theorem C2_crt_modpow_amended_witness :
    crt_modpow 2 3 15 5 3 2 = 2 ^ 3 % 15 :=
  C2_crt_modpow_amended 2 3 (by decide) (by norm_num) (by norm_num)
    (by decide) (by decide) (by decide) (by decide) (by decide)

/-- C3: `rsa2_verifysig` succeeds exactly when the signature blob parses as
the string "ssh-rsa" followed by an mpint s whose e-th power modulo n,
read as big-endian bytes indexed from 0 = LSB over
bytes = ceil(bits(n)/8) positions, carries 0x00 at the top partial byte,
0x01 below it, 0xFF filler down to index 36, the 16-byte ASN.1 DigestInfo
prefix at indices 35..20, and SHA-1(data) at indices 19..0; any mismatch
fails. -/
theorem C3_verifysig_layout (sha1 : List ℕ → List ℕ) (key : RSAKey)
    (sig data : List ℕ) :
    rsa2_verifysig sha1 key sig data = 1 ↔
      rsa2_verifysig_claim sha1 key sig data :=
  rsa2_verifysig_iff sha1 key sig data

/-- C4 counterexample: for a modulus of 300 bits the encoded message has
37 bytes, which is one less than the modulus byte length but differs from
the claim's formula ceil((bits(n) − 1) / 8) = 38. -/
theorem C4_sign_encode_counterexample :
    (rsa2_sign_encode (2 ^ 299) (List.replicate 20 0)).length = 37 ∧
    (bignum_bitcount (2 ^ 299) - 1 + 7) / 8 = 38 ∧
    (rsa2_sign_encode (2 ^ 299) (List.replicate 20 0)).length ≠
      (bignum_bitcount (2 ^ 299) - 1 + 7) / 8 := by
  refine ⟨by decide, by decide, by decide⟩

/-- C4 (amended): the encoded message has length exactly
k = ⌊(bits(n) − 1) / 8⌋ — one less than the modulus byte length, the floor
and not the ceiling of (bits(n) − 1)/8 — and consists of 0x01, then
k − 20 − 16 − 1 bytes of 0xFF, then the 16-byte ASN.1 DigestInfo prefix,
then the 20-byte SHA-1 of the data; the blinded-CRT private operation is
applied to this integer and the result is emitted after "ssh-rsa". -/
theorem C4_sign_encoding (sha1 : List ℕ → List ℕ) (key : RSAKey)
    (data : List ℕ) (r rinv : ℕ)
    (h20 : (sha1 data).length = 20)
    (hsz : 37 ≤ (bignum_bitcount key.modulus - 1) / 8) :
    (rsa2_sign_encode key.modulus (sha1 data)).length
        = (bignum_bitcount key.modulus - 1) / 8 ∧
    (rsa2_sign_encode key.modulus (sha1 data)).length
        = (bignum_bitcount key.modulus + 7) / 8 - 1 ∧
    rsa2_sign_encode key.modulus (sha1 data) =
      1 :: (List.replicate ((bignum_bitcount key.modulus - 1) / 8 - 20 - 16 - 1) 255
        ++ asn1_weird_stuff ++ sha1 data) ∧
    rsa2_sign sha1 key data r rinv =
      (let out := rsa_privkey_op
        (bignum_from_bytes (rsa2_sign_encode key.modulus (sha1 data))) key r rinv
       put_stringz sshrsaId ++ put_uint32 ((bignum_bitcount out + 7) / 8) ++
         bytes_be out ((bignum_bitcount out + 7) / 8)) := by
  refine ⟨rsa2_sign_encode_length _ _ h20 hsz, ?_, ?_, rfl⟩
  · rw [rsa2_sign_encode_length _ _ h20 hsz]
    omega
  · rfl

theorem C4_sign_encoding_witness :
    (rsa2_sign_encode witKey.modulus (zeroHash [])).length
      = (bignum_bitcount witKey.modulus - 1) / 8 :=
  (C4_sign_encoding zeroHash witKey [] 1 1 (by decide) (by decide)).1

/-! ## Lemmas about `rsa_verify` -/

theorem modEq_one_of_mod_eq_one {a m : ℕ} (h : a % m = 1) : a ≡ 1 [MOD m] := by
  show a % m = 1 % m
  rcases Nat.lt_or_ge m 2 with hm | hm
  · interval_cases m
    · simpa using h
    · omega
  · rw [h, Nat.mod_eq_of_lt (by omega)]

/-- C5: whenever `rsa_verify` succeeds, all four invariants hold on the key
it leaves behind, with p > q; and when the early checks pass and p ≤ q at
entry, it swaps p and q and recomputes iqmp as the modular inverse of the
new q modulo the new p, failing if no inverse exists.  Contrapositively,
any invariant violation makes it return the failure value. -/
theorem C5_rsa_verify_invariants (key : RSAKey) :
    ((rsa_verify key).1 = true →
      ((rsa_verify key).2.p * (rsa_verify key).2.q = (rsa_verify key).2.modulus ∧
       (rsa_verify key).2.exponent * (rsa_verify key).2.private_exponent ≡ 1
         [MOD (rsa_verify key).2.p - 1] ∧
       (rsa_verify key).2.exponent * (rsa_verify key).2.private_exponent ≡ 1
         [MOD (rsa_verify key).2.q - 1] ∧
       (rsa_verify key).2.iqmp * (rsa_verify key).2.q ≡ 1
         [MOD (rsa_verify key).2.p] ∧
       (rsa_verify key).2.q < (rsa_verify key).2.p)) ∧
    (key.p * key.q = key.modulus →
     key.exponent * key.private_exponent % (key.p - 1) = 1 →
     key.exponent * key.private_exponent % (key.q - 1) = 1 →
     key.p ≤ key.q →
      ((rsa_verify key).2.p = key.q ∧ (rsa_verify key).2.q = key.p ∧
       (modinv key.p key.q = none → (rsa_verify key).1 = false) ∧
       (∀ v, modinv key.p key.q = some v → (rsa_verify key).2.iqmp = v))) := by
  unfold rsa_verify
  by_cases h1 : key.p * key.q ≠ key.modulus
  · rw [if_pos h1]
    exact ⟨by intro h; simp at h, fun hn _ _ _ => absurd hn h1⟩
  rw [if_neg h1]
  push_neg at h1
  by_cases h2 : key.exponent * key.private_exponent % (key.p - 1) ≠ 1
  · rw [if_pos h2]
    exact ⟨by intro h; simp at h, fun _ hp _ _ => absurd hp h2⟩
  rw [if_neg h2]
  push_neg at h2
  by_cases h3 : key.exponent * key.private_exponent % (key.q - 1) ≠ 1
  · rw [if_pos h3]
    exact ⟨by intro h; simp at h, fun _ _ hq _ => absurd hq h3⟩
  rw [if_neg h3]
  push_neg at h3
  by_cases h4 : key.p ≤ key.q
  · rw [if_pos h4]
    dsimp only
    rcases hmi : modinv key.p key.q with _ | v <;> dsimp only
    · constructor
      · intro h
        simp at h
      · intro _ _ _ _
        exact ⟨rfl, rfl, fun _ => rfl, fun v hv => Option.noConfusion hv⟩
    · have hgcd : Nat.gcd key.p key.q = 1 := by
        by_contra hg
        rw [modinv, if_neg hg] at hmi
        cases hmi
      by_cases h5 : v * key.p % key.q = 1
      · rw [if_pos h5]
        constructor
        · intro _
          refine ⟨by rw [Nat.mul_comm]; exact h1, ?_, ?_, ?_, ?_⟩
          · exact modEq_one_of_mod_eq_one h3
          · exact modEq_one_of_mod_eq_one h2
          · exact modEq_one_of_mod_eq_one h5
          · show key.p < key.q
            rcases Nat.lt_or_ge key.p key.q with hlt | hge
            · exact hlt
            · exfalso
              have heq : key.p = key.q := by omega
              have hone : key.p = 1 := by
                rw [heq, Nat.gcd_self] at hgcd
                omega
              have hq1 : key.q = 1 := by omega
              rw [hq1, Nat.mod_one] at h5
              exact absurd h5 (by omega)
        · intro _ _ _ _
          exact ⟨rfl, rfl, fun hc => Option.noConfusion hc,
            fun w hw => Option.some.inj hw⟩
      · rw [if_neg h5]
        constructor
        · intro h
          simp at h
        · intro _ _ _ _
          exact ⟨rfl, rfl, fun hc => Option.noConfusion hc,
            fun w hw => Option.some.inj hw⟩
  · rw [if_neg h4]
    by_cases h5 : key.iqmp * key.q % key.p = 1
    · rw [if_pos h5]
      constructor
      · intro _
        exact ⟨h1, modEq_one_of_mod_eq_one h2, modEq_one_of_mod_eq_one h3,
          modEq_one_of_mod_eq_one h5, by show key.q < key.p; omega⟩
      · intro _ _ _ hle
        exact absurd hle h4
    · rw [if_neg h5]
      exact ⟨by intro h; simp at h, fun _ _ _ hle => absurd hle h4⟩

theorem C5_rsa_verify_invariants_witness :
    (rsa_verify ⟨15, 1, 1, 3, 5, 0, 0, 0, none⟩).1 = true ∧
    (rsa_verify ⟨15, 1, 1, 3, 5, 0, 0, 0, none⟩).2.iqmp *
        (rsa_verify ⟨15, 1, 1, 3, 5, 0, 0, 0, none⟩).2.q ≡ 1
      [MOD (rsa_verify ⟨15, 1, 1, 3, 5, 0, 0, 0, none⟩).2.p] ∧
    (rsa_verify ⟨15, 1, 1, 3, 5, 0, 0, 0, none⟩).2.q <
      (rsa_verify ⟨15, 1, 1, 3, 5, 0, 0, 0, none⟩).2.p ∧
    (rsa_verify ⟨15, 1, 1, 3, 5, 0, 0, 0, none⟩).2.p = 5 := by
  refine ⟨by decide, ?_, ?_, ?_⟩
  · exact ((C5_rsa_verify_invariants ⟨15, 1, 1, 3, 5, 0, 0, 0, none⟩).1
      (by decide)).2.2.2.1
  · exact ((C5_rsa_verify_invariants ⟨15, 1, 1, 3, 5, 0, 0, 0, none⟩).1
      (by decide)).2.2.2.2
  · exact ((C5_rsa_verify_invariants ⟨15, 1, 1, 3, 5, 0, 0, 0, none⟩).2
      (by decide) (by decide) (by decide) (by decide)).1

/-- C10: frame property of `rsa_verify`.  Every call leaves `modulus`,
`exponent`, `private_exponent`, `bits`, `bytes` and `comment` unchanged;
when p > q at entry the key is returned entirely unchanged (so only the
canonicalisation swap may modify p, q, iqmp); and there is a call that
returns failure yet leaves the key mutated. -/
theorem C10_rsa_verify_frame (key : RSAKey) :
    ((rsa_verify key).2.modulus = key.modulus ∧
     (rsa_verify key).2.exponent = key.exponent ∧
     (rsa_verify key).2.private_exponent = key.private_exponent ∧
     (rsa_verify key).2.bits = key.bits ∧
     (rsa_verify key).2.bytes = key.bytes ∧
     (rsa_verify key).2.comment = key.comment) ∧
    (key.q < key.p → (rsa_verify key).2 = key) ∧
    (∃ k : RSAKey, (rsa_verify k).1 = false ∧ (rsa_verify k).2 ≠ k) := by
  refine ⟨?_, ?_, ⟨⟨27, 1, 1, 3, 9, 7, 0, 0, none⟩, by decide, by decide⟩⟩
  · unfold rsa_verify
    by_cases h1 : key.p * key.q ≠ key.modulus
    · rw [if_pos h1]
      exact ⟨rfl, rfl, rfl, rfl, rfl, rfl⟩
    rw [if_neg h1]
    by_cases h2 : key.exponent * key.private_exponent % (key.p - 1) ≠ 1
    · rw [if_pos h2]
      exact ⟨rfl, rfl, rfl, rfl, rfl, rfl⟩
    rw [if_neg h2]
    by_cases h3 : key.exponent * key.private_exponent % (key.q - 1) ≠ 1
    · rw [if_pos h3]
      exact ⟨rfl, rfl, rfl, rfl, rfl, rfl⟩
    rw [if_neg h3]
    by_cases h4 : key.p ≤ key.q
    · rw [if_pos h4]
      dsimp only
      rcases modinv key.p key.q with _ | v <;> dsimp only
      · exact ⟨rfl, rfl, rfl, rfl, rfl, rfl⟩
      · by_cases h5 : v * key.p % key.q = 1
        · rw [if_pos h5]
          exact ⟨rfl, rfl, rfl, rfl, rfl, rfl⟩
        · rw [if_neg h5]
          exact ⟨rfl, rfl, rfl, rfl, rfl, rfl⟩
    · rw [if_neg h4]
      by_cases h5 : key.iqmp * key.q % key.p = 1
      · rw [if_pos h5]
        exact ⟨rfl, rfl, rfl, rfl, rfl, rfl⟩
      · rw [if_neg h5]
        exact ⟨rfl, rfl, rfl, rfl, rfl, rfl⟩
  · intro hpq
    unfold rsa_verify
    by_cases h1 : key.p * key.q ≠ key.modulus
    · rw [if_pos h1]
    · rw [if_neg h1]
      by_cases h2 : key.exponent * key.private_exponent % (key.p - 1) ≠ 1
      · rw [if_pos h2]
      · rw [if_neg h2]
        by_cases h3 : key.exponent * key.private_exponent % (key.q - 1) ≠ 1
        · rw [if_pos h3]
        · rw [if_neg h3]
          have h4 : ¬key.p ≤ key.q := by omega
          rw [if_neg h4]
          by_cases h5 : key.iqmp * key.q % key.p = 1
          · rw [if_pos h5]
          · rw [if_neg h5]

theorem C10_rsa_verify_frame_witness :
    (3 : ℕ) < 5 ∧ (rsa_verify ⟨15, 1, 1, 5, 3, 2, 0, 0, none⟩).2 =
      ⟨15, 1, 1, 5, 3, 2, 0, 0, none⟩ :=
  ⟨by decide, (C10_rsa_verify_frame ⟨15, 1, 1, 5, 3, 2, 0, 0, none⟩).2.1 (by decide)⟩

/-! ## MGF1 masking lemmas -/

theorem zipWith_xor_cancel : ∀ (a b : List ℕ), a.length ≤ b.length →
    List.zipWith (fun x y => x ^^^ y)
      (List.zipWith (fun x y => x ^^^ y) a b) b = a := by
  intro a
  induction a with
  | nil => intro b _; simp
  | cons x xs ih =>
    intro b hb
    cases b with
    | nil => simp at hb
    | cons y ys =>
      simp only [List.zipWith_cons_cons, List.cons.injEq]
      exact ⟨Nat.xor_cancel_right y x, ih ys (by simpa using hb)⟩

theorem oaep_maskAux_length (h : List ℕ → List ℕ) (hlen : ℕ)
    (hh : ∀ x, (h x).length = hlen) (hpos : 0 < hlen) (seed : List ℕ) :
    ∀ fuel count data, data.length ≤ fuel →
      (oaep_maskAux h hlen seed fuel count data).length = data.length := by
  intro fuel
  induction fuel with
  | zero =>
    intro count data hd
    rw [oaep_maskAux]
  | succ fuel ih =>
    intro count data hd
    rw [oaep_maskAux]
    by_cases he : data.isEmpty
    · rw [if_pos he]
    · rw [if_neg he]
      have hne : data ≠ [] := by simpa using he
      have hdl : 0 < data.length := List.length_pos.mpr hne
      have hmx : min hlen data.length ≤ data.length := Nat.min_le_right _ _
      have hmx1 : 1 ≤ min hlen data.length := by omega
      rw [List.length_append, ih (count + 1) _ (by simp; omega)]
      simp only [List.length_zipWith, List.length_take, List.length_drop, hh]
      omega

theorem oaep_maskAux_involution (h : List ℕ → List ℕ) (hlen : ℕ)
    (hh : ∀ x, (h x).length = hlen) (hpos : 0 < hlen) (seed : List ℕ) :
    ∀ fuel count data, data.length ≤ fuel →
      oaep_maskAux h hlen seed fuel count
        (oaep_maskAux h hlen seed fuel count data) = data := by
  intro fuel
  induction fuel with
  | zero =>
    intro count data hd
    rw [oaep_maskAux, oaep_maskAux]
  | succ fuel ih =>
    intro count data hd
    by_cases he : data.isEmpty
    · rw [List.isEmpty_iff] at he
      subst he
      simp [oaep_maskAux]
    · have hne : data ≠ [] := by simpa using he
      have hdl : 0 < data.length := List.length_pos.mpr hne
      have hmx : min hlen data.length ≤ data.length := Nat.min_le_right _ _
      have hmx1 : 1 ≤ min hlen data.length := by omega
      have hinner : oaep_maskAux h hlen seed (fuel + 1) count data =
          List.zipWith (fun a b => a ^^^ b) (data.take (min hlen data.length))
            ((h (seed ++ put_uint32 count)).take (min hlen data.length)) ++
          oaep_maskAux h hlen seed fuel (count + 1)
            (data.drop (min hlen data.length)) := by
        rw [oaep_maskAux, if_neg he]
      have hblen : (List.zipWith (fun a b => a ^^^ b)
          (data.take (min hlen data.length))
          ((h (seed ++ put_uint32 count)).take (min hlen data.length))).length
          = min hlen data.length := by
        simp only [List.length_zipWith, List.length_take, hh]
        omega
      have hrlen : (oaep_maskAux h hlen seed fuel (count + 1)
          (data.drop (min hlen data.length))).length
          = data.length - min hlen data.length := by
        rw [oaep_maskAux_length h hlen hh hpos seed fuel (count + 1) _ (by simp; omega)]
        simp
      have htotlen : (List.zipWith (fun a b => a ^^^ b)
            (data.take (min hlen data.length))
            ((h (seed ++ put_uint32 count)).take (min hlen data.length)) ++
          oaep_maskAux h hlen seed fuel (count + 1)
            (data.drop (min hlen data.length))).length = data.length := by
        rw [List.length_append, hblen, hrlen]
        omega
      rw [hinner, oaep_maskAux]
      rw [if_neg (by rw [List.isEmpty_iff]; intro hc; rw [hc] at htotlen; simp at htotlen; omega)]
      rw [htotlen]
      dsimp only
      rw [List.take_left' hblen, List.drop_left' hblen]
      rw [zipWith_xor_cancel _ _ (by simp only [List.length_take, hh]; omega)]
      rw [ih (count + 1) _ (by simp; omega)]
      exact List.take_append_drop _ data

theorem oaep_mask_involution (h : List ℕ → List ℕ) (hlen : ℕ)
    (hh : ∀ x, (h x).length = hlen) (hpos : 0 < hlen) (seed data : List ℕ) :
    oaep_mask h hlen seed (oaep_mask h hlen seed data) = data := by
  unfold oaep_mask
  rw [oaep_maskAux_length h hlen hh hpos seed data.length 0 data le_rfl]
  exact oaep_maskAux_involution h hlen hh hpos seed data.length 0 data le_rfl

theorem oaep_mask_length (h : List ℕ → List ℕ) (hlen : ℕ)
    (hh : ∀ x, (h x).length = hlen) (hpos : 0 < hlen) (seed data : List ℕ) :
    (oaep_mask h hlen seed data).length = data.length :=
  oaep_maskAux_length h hlen hh hpos seed data.length 0 data le_rfl

theorem ssh_rsakex_encrypt_base_eq (h : List ℕ → List ℕ) (hlen : ℕ)
    (seed plain : List ℕ) (outlen : ℕ)
    (hh0 : (h []).length = hlen) (hseed : seed.length = hlen)
    (hfit : plain.length + 2 * hlen + 2 ≤ outlen) :
    ssh_rsakex_encrypt_base h hlen seed plain outlen =
      0 :: (seed ++ (h [] ++
        (List.replicate (outlen - 2 * hlen - 2 - plain.length) 0 ++ 1 :: plain))) := by
  unfold ssh_rsakex_encrypt_base
  dsimp only
  have hm : outlen - plain.length - 1 = (outlen - plain.length - 2) + 1 := by omega
  rw [hm, List.take_succ_cons]
  rw [List.take_append_eq_append_take]
  rw [List.take_of_length_le
    (by simp only [List.length_append, hseed, hh0]; omega)]
  rw [List.take_replicate]
  simp only [List.length_append, hseed, hh0]
  rw [show min (outlen - plain.length - 2 - (hlen + hlen)) (outlen - (2 * hlen + 1))
      = outlen - 2 * hlen - 2 - plain.length by omega]
  simp [List.append_assoc]

/-- C6: RSAES-OAEP structural correctness.  Just before the modular
exponentiation, the buffer starts with a zero byte, and applying the two
MGF1 unmaskings in reverse order (first unmask the seed region with the
masked data block, then unmask the data block with the recovered seed)
recovers the original seed, the hash of the empty label, the zero padding,
the 0x01 separator, and the plaintext. -/
theorem C6_oaep_structural (h : List ℕ → List ℕ) (hlen : ℕ)
    (seed plain : List ℕ) (outlen : ℕ)
    (hh : ∀ x, (h x).length = hlen) (hpos : 0 < hlen)
    (hseed : seed.length = hlen)
    (_hin : 0 < plain.length) (hfit : plain.length + 2 * hlen + 2 ≤ outlen) :
    (ssh_rsakex_encrypt_premodexp h hlen seed plain outlen).getD 0 0 = 0 ∧
    oaep_mask h hlen
        ((ssh_rsakex_encrypt_premodexp h hlen seed plain outlen).drop (hlen + 1))
        (((ssh_rsakex_encrypt_premodexp h hlen seed plain outlen).drop 1).take hlen)
      = seed ∧
    oaep_mask h hlen seed
        ((ssh_rsakex_encrypt_premodexp h hlen seed plain outlen).drop (hlen + 1))
      = h [] ++ (List.replicate (outlen - 2 * hlen - 2 - plain.length) 0
          ++ 1 :: plain) := by
  have hbase := ssh_rsakex_encrypt_base_eq h hlen seed plain outlen (hh []) hseed hfit
  have hu : ssh_rsakex_encrypt_premodexp h hlen seed plain outlen =
      0 :: (oaep_mask h hlen
          (oaep_mask h hlen seed (h [] ++
            (List.replicate (outlen - 2 * hlen - 2 - plain.length) 0 ++ 1 :: plain)))
          seed ++
        oaep_mask h hlen seed (h [] ++
          (List.replicate (outlen - 2 * hlen - 2 - plain.length) 0 ++ 1 :: plain))) := by
    unfold ssh_rsakex_encrypt_premodexp
    rw [hbase]
    dsimp only
    rw [List.drop_succ_cons, List.drop_zero, List.take_left' hseed]
    rw [show hlen + 1 = hlen + 1 from rfl, List.drop_succ_cons, List.drop_left' hseed]
    rfl
  rw [hu]
  set DB := h [] ++
    (List.replicate (outlen - 2 * hlen - 2 - plain.length) 0 ++ 1 :: plain) with hDB
  set mDB := oaep_mask h hlen seed DB with hmDB
  set mS := oaep_mask h hlen mDB seed with hmS
  have hmSlen : mS.length = hlen := by
    rw [hmS, oaep_mask_length h hlen hh hpos, hseed]
  refine ⟨rfl, ?_, ?_⟩
  · rw [List.drop_succ_cons, List.drop_left' hmSlen,
      List.drop_succ_cons, List.drop_zero, List.take_left' hmSlen]
    exact oaep_mask_involution h hlen hh hpos mDB seed
  · rw [List.drop_succ_cons, List.drop_left' hmSlen]
    exact oaep_mask_involution h hlen hh hpos seed DB

theorem C6_oaep_structural_witness :
    (ssh_rsakex_encrypt_premodexp (fun _ => [3, 1, 4, 1]) 4 [1, 2, 3, 4] [9, 8, 7]
        16).getD 0 0 = 0 ∧
    oaep_mask (fun _ => [3, 1, 4, 1]) 4
        ((ssh_rsakex_encrypt_premodexp (fun _ => [3, 1, 4, 1]) 4 [1, 2, 3, 4] [9, 8, 7]
          16).drop 5)
        (((ssh_rsakex_encrypt_premodexp (fun _ => [3, 1, 4, 1]) 4 [1, 2, 3, 4] [9, 8, 7]
          16).drop 1).take 4)
      = [1, 2, 3, 4] :=
  ⟨(C6_oaep_structural (fun _ => [3, 1, 4, 1]) 4 [1, 2, 3, 4] [9, 8, 7] 16
      (fun _ => rfl) (by decide) rfl (by decide) (by decide)).1,
   (C6_oaep_structural (fun _ => [3, 1, 4, 1]) 4 [1, 2, 3, 4] [9, 8, 7] 16
      (fun _ => rfl) (by decide) rfl (by decide) (by decide)).2.1⟩

/-- C7 counterexample: with key.bytes = 10 and a 5-byte plaintext the claim's
failure condition holds (5 + 11 exceeds 10), yet `rsa_ssh1_encrypt`
succeeds — the code checks `key->bytes < length + 4`, not eleven bytes of
padding overhead. -/
theorem C7_ssh1_encrypt_counterexample :
    (10 : ℕ) < 5 + 11 ∧
    (rsa_ssh1_encrypt [1, 2, 3, 4, 5] ⟨2 ^ 80 + 1, 1, 0, 0, 0, 0, 0, 10, none⟩
      (fun _ => 1)).1 = 1 :=
  ⟨by decide, by decide⟩

/-- C7 (amended): SSH-1 PKCS#1 v1.5 encryption reports the boolean failure
exactly when the plaintext length plus four exceeds `key.bytes`
(equivalently, plaintexts of length L ≤ key.bytes − 4 are accepted), and on
that failure the data buffer is not mutated. -/
theorem C7_ssh1_encrypt_size (data : List ℕ) (key : RSAKey) (rnd : ℕ → ℕ) :
    ((rsa_ssh1_encrypt data key rnd).1 = 0 ↔ key.bytes < data.length + 4) ∧
    ((rsa_ssh1_encrypt data key rnd).1 = 0 →
      (rsa_ssh1_encrypt data key rnd).2 = data) := by
  unfold rsa_ssh1_encrypt
  dsimp only
  by_cases hc : key.bytes < data.length + 4
  · rw [if_pos hc]
    exact ⟨⟨fun _ => hc, fun _ => rfl⟩, fun _ => rfl⟩
  · rw [if_neg hc]
    exact ⟨⟨fun h1 => absurd h1 one_ne_zero, fun hlt => absurd hlt hc⟩,
      fun h1 => absurd h1 one_ne_zero⟩

theorem C7_ssh1_encrypt_size_witness :
    (rsa_ssh1_encrypt [1, 2, 3] ⟨5, 1, 0, 0, 0, 0, 0, 6, none⟩ (fun _ => 1)).1 = 0 ∧
    (rsa_ssh1_encrypt [1, 2, 3] ⟨5, 1, 0, 0, 0, 0, 0, 6, none⟩ (fun _ => 1)).2
      = [1, 2, 3] :=
  ⟨(C7_ssh1_encrypt_size [1, 2, 3] ⟨5, 1, 0, 0, 0, 0, 0, 6, none⟩ (fun _ => 1)).1.mpr
      (by decide),
   (C7_ssh1_encrypt_size [1, 2, 3] ⟨5, 1, 0, 0, 0, 0, 0, 6, none⟩ (fun _ => 1)).2
      ((C7_ssh1_encrypt_size [1, 2, 3] ⟨5, 1, 0, 0, 0, 0, 0, 6, none⟩
        (fun _ => 1)).1.mpr (by decide))⟩

/-- C8 counterexample: instantiating the hash collaborator with a 20-byte
stand-in whose 17th output byte is nonzero, a 65-byte key (longer than the
block) gives the bug-compatible HMAC-SHA1 descriptor exactly the same key
schedule as the plain one, that schedule keys the pads with byte 16 of the
hashed key (so not only with the first 16 bytes), and the descriptor's
output length is 20, not 16. -/
theorem C8_hmac_buggy_counterexample :
    (ssh_hmac_sha1_buggy ⟨fun x => (List.range 20).map (fun i => (x.length + i) % 256),
        20, "SHA-1"⟩).len = 20 ∧
    hmac_key (ssh_hmac_sha1_buggy ⟨fun x =>
        (List.range 20).map (fun i => (x.length + i) % 256), 20, "SHA-1"⟩).extra
        (List.replicate 65 0) =
      hmac_key (ssh_hmac_sha1 ⟨fun x =>
        (List.range 20).map (fun i => (x.length + i) % 256), 20, "SHA-1"⟩).extra
        (List.replicate 65 0) ∧
    (hmac_key (ssh_hmac_sha1_buggy ⟨fun x =>
        (List.range 20).map (fun i => (x.length + i) % 256), 20, "SHA-1"⟩).extra
        (List.replicate 65 0)).2.getD 16 0 ≠ PAD_INNER :=
  ⟨rfl, rfl, by decide⟩

/-- C8 (amended): the bug-compatible HMAC-SHA1 and HMAC-SHA1-96 descriptors
share the plain variants' key schedule verbatim — a key longer than the
64-byte block is hashed and the full 20-byte digest keys the pads — and
differ from them in the declared key-material length (keylen = 16 instead
of 20); their output lengths are 20 and 12, the same as the plain
variants'. -/
theorem C8_hmac_buggy_descriptors (A : ssh_hashalg) (key : List ℕ) :
    hmac_key (ssh_hmac_sha1_buggy A).extra key
      = hmac_key (ssh_hmac_sha1 A).extra key ∧
    hmac_key (ssh_hmac_sha1_96_buggy A).extra key
      = hmac_key (ssh_hmac_sha1_96 A).extra key ∧
    (ssh_hmac_sha1_buggy A).keylen = 16 ∧ (ssh_hmac_sha1 A).keylen = 20 ∧
    (ssh_hmac_sha1_buggy A).len = 20 ∧ (ssh_hmac_sha1 A).len = 20 ∧
    (ssh_hmac_sha1_96_buggy A).keylen = 16 ∧ (ssh_hmac_sha1_96 A).keylen = 20 ∧
    (ssh_hmac_sha1_96_buggy A).len = 12 ∧ (ssh_hmac_sha1_96 A).len = 12 ∧
    (ssh_hmac_sha1_buggy A).name = (ssh_hmac_sha1 A).name :=
  ⟨rfl, rfl, rfl, rfl, rfl, rfl, rfl, rfl, rfl, rfl, rfl⟩

/-- C9 (code bug): `rsa2_createkey` applies `FROMFIELD` to the result of
`rsa2_newkey` and writes through it without a NULL check, and `rsa_verify`
dereferences the private bignums without NULL checks, so a malformed public
blob (here: empty input) and a private blob missing d, p, q, iqmp (here:
empty) both crash instead of returning the null-key sentinel.
`rsa2_newkey` itself correctly returns NULL on the malformed public blob,
and the second public blob is well-formed, isolating the missing-mpint
path. -/
theorem C9_createkey_crash :
    rsa2_createkey [] [] = CreateResult.crash ∧
    rsa2_newkey [] = none ∧
    rsa2_createkey
      ([0, 0, 0, 7] ++ sshrsaId ++ ([0, 0, 0, 1, 1] ++ [0, 0, 0, 1, 2])) []
      = CreateResult.crash ∧
    (rsa2_newkey
      ([0, 0, 0, 7] ++ sshrsaId ++ ([0, 0, 0, 1, 1] ++ [0, 0, 0, 1, 2]))).isSome
      = true :=
  ⟨by decide, by decide, by decide, by decide⟩
